import Mathlib

/-!
Verification of the random-variable algebra of the probnum excerpt.

The repository excerpt ships only the test suite
(`tests/test_probability/test_randomvariable.py`) and one observer module
(`docs/source/development/quadopt_example/observation_operators.py`).
The core modules `probnum.probability`, `probnum.linalg.linear_operators`
and `probnum.utils` are not part of the excerpt, so they are modelled here
from the specification, while `function_evaluation` is translated from the
shipped source.  Matrices are embedded as lists of lists of rationals
(numpy float arrays become exact rational arrays), vectors as lists, and
fallible operations return `Option` or `Except`.
-/

namespace ProbNum

/-- Vectors are lists of rationals. -/
abbrev Vec := List ℚ

/-- Matrices are row-major lists of rational rows. -/
abbrev Mat := List (List ℚ)

/-- Number of columns of a row-major list matrix: length of the first row. -/
def cols (M : Mat) : ℕ := (M.headD []).length

/-- Well-formedness of an `r × c` list matrix: `r` rows, each of length `c`. -/
def Wf (M : Mat) (r c : ℕ) : Prop := M.length = r ∧ ∀ row ∈ M, row.length = c

/-- Dot product of two rational vectors (truncating at the shorter one). -/
def dot (v w : Vec) : ℚ := (List.zipWith (· * ·) v w).sum

/-- Scalar multiple of a vector. -/
def smulVec (a : ℚ) (v : Vec) : Vec := v.map (fun x => a * x)

/-- Elementwise sum of two vectors; a missing tail is treated as zeros. -/
def addVec : Vec → Vec → Vec
  | [], w => w
  | v, [] => v
  | a :: v, b :: w => (a + b) :: addVec v w

/-- Scalar multiple of a matrix. -/
def smulMat (a : ℚ) (M : Mat) : Mat := M.map (smulVec a)

/-- Elementwise sum of two matrices. -/
def addMat (M N : Mat) : Mat := List.zipWith addVec M N

/-- Matrix-vector product `M · v`. -/
def matvec (M : Mat) (v : Vec) : Vec := M.map (fun r => dot r v)

/-- Row-vector times matrix, `rᵀ · M`, as a linear combination of the rows. -/
def vecMat : Vec → Mat → Vec
  | [], _ => []
  | _, [] => []
  | a :: r, row :: M => addVec (smulVec a row) (vecMat r M)

/-- Matrix product `A · B`. -/
def matmul (A B : Mat) : Mat := A.map (fun r => vecMat r B)

/-- Product with a transpose, `A · Bᵀ`: entry `(i, k)` is the dot product of
row `i` of `A` with row `k` of `B`. -/
def matmulT (A B : Mat) : Mat := A.map (fun r => B.map (fun br => dot r br))

/-- Transpose of a list matrix. -/
def transposeM (M : Mat) : Mat :=
  (List.range (cols M)).map (fun j => M.map (fun r => r.getD j 0))

/-- Row-major vectorization `vec(X)` of a matrix (numpy `reshape(-1)`). -/
def vec (M : Mat) : Vec := M.flatMap id

/-- Splits a vector into `m` consecutive chunks of length `n`. -/
def unvecAux : ℕ → ℕ → Vec → Mat
  | 0, _, _ => []
  | m + 1, n, v => v.take n :: unvecAux m n (v.drop n)

/-- Row-major reshape of a vector into a matrix with rows of length `n`. -/
def unvec (n : ℕ) (v : Vec) : Mat := unvecAux (v.length / n) n v

/-- Kronecker product of two list matrices (numpy `kron`, row-major). -/
def kron (A B : Mat) : Mat :=
  A.flatMap (fun ar => B.map (fun br => ar.flatMap (fun a => smulVec a br)))

/-- Identity matrix of size `n` (numpy `eye`). -/
def eyeM (n : ℕ) : Mat :=
  (List.range n).map (fun i => (List.range n).map (fun j => if i = j then (1 : ℚ) else 0))

/-- Zero matrix of shape `r × c` (numpy `zeros`). -/
def zerosM (r c : ℕ) : Mat := List.replicate r (List.replicate c (0 : ℚ))

/-- Modelled from the spec: the polymorphic `LinearOperator` of
`probnum.linalg.linear_operators` (absent from the excerpt), with the two
concrete variants `MatrixMult` (a dense matrix) and `SymmetricKronecker`
(the symmetrized Kronecker product of two square factors). -/
inductive LinearOp where
  | matrixMult (A : Mat)
  | symmetricKronecker (A B : Mat)

/-- Modelled from the spec: number of rows of a `LinearOperator`. -/
def LinearOp.rows : LinearOp → ℕ
  | .matrixMult A => A.length
  | .symmetricKronecker A B => A.length * B.length

/-- Modelled from the spec: number of columns of a `LinearOperator`. -/
def LinearOp.colsOp : LinearOp → ℕ
  | .matrixMult A => cols A
  | .symmetricKronecker A B => cols A * cols B

/-- Modelled from the spec: `to_dense` materializes the operator; for
`SymmetricKronecker(A, B)` it is `(A ⊗ B + B ⊗ A) / 2`. -/
def LinearOp.todense : LinearOp → Mat
  | .matrixMult A => A
  | .symmetricKronecker A B => smulMat (1 / 2) (addMat (kron A B) (kron B A))

/-- Modelled from the spec: the structured action of the operator on a
vector.  For `SymmetricKronecker(A, B)` the input is reshaped as a matrix
`X` and the result is `vec((A X Bᵀ + B X Aᵀ) / 2)`, using the identity
`(A ⊗ B) vec(X) = vec(A X Bᵀ)` instead of materializing the dense matrix. -/
def LinearOp.applyCore : LinearOp → Vec → Vec
  | .matrixMult A, x => matvec A x
  | .symmetricKronecker A B, x =>
      vec (smulMat (1 / 2)
        (addMat (matmulT (matmul A (unvec (cols B) x)) B)
                (matmulT (matmul B (unvec (cols B) x)) A)))

/-- Modelled from the spec: `apply(vector)` fails with a `ShapeError`
(`none`) when the vector length does not match the operator columns. -/
def LinearOp.apply (L : LinearOp) (x : Vec) : Option Vec :=
  if x.length = L.colsOp then some (L.applyCore x) else none

/-- Modelled from the spec: `transpose()`; a symmetric Kronecker operator is
its own transpose. -/
def LinearOp.transposeOp : LinearOp → LinearOp
  | .matrixMult A => .matrixMult (transposeM A)
  | .symmetricKronecker A B => .symmetricKronecker A B

/-- Modelled from the spec: a covariance is a dense matrix or is owned by a
`LinearOperator`. -/
inductive Covariance where
  | dense (M : Mat)
  | op (L : LinearOp)

/-- Modelled from the spec: dense materialization of a covariance. -/
def Covariance.todense : Covariance → Mat
  | .dense M => M
  | .op L => L.todense

/-- Modelled from the spec: structured action of a covariance on a vector. -/
def Covariance.applyCore : Covariance → Vec → Vec
  | .dense M, x => matvec M x
  | .op L, x => L.applyCore x

/-- Modelled from the spec: scaling a random variable by `α` scales its
covariance by `α²`; a Kronecker-structured covariance stays structured by
scaling each factor by `α`. -/
def Covariance.scale (α : ℚ) : Covariance → Covariance
  | .dense M => .dense (smulMat (α ^ 2) M)
  | .op (.matrixMult A) => .op (.matrixMult (smulMat (α ^ 2) A))
  | .op (.symmetricKronecker A B) => .op (.symmetricKronecker (smulMat α A) (smulMat α B))

/-- Modelled from the spec: mean values are scalars, vectors or matrices. -/
inductive Value where
  | scalar (x : ℚ)
  | vector (v : Vec)
  | matrix (M : Mat)

/-- Shape of a value in the numpy sense: `()`, `(n,)` or `(m, n)`. -/
def Value.shape : Value → List ℕ
  | .scalar _ => []
  | .vector v => [v.length]
  | .matrix M => [M.length, cols M]

/-- Total number of entries of a value. -/
def Value.size : Value → ℕ
  | .scalar _ => 1
  | .vector v => v.length
  | .matrix M => M.length * cols M

/-- Scaling of a mean value by a scalar. -/
def Value.scale (α : ℚ) : Value → Value
  | .scalar x => .scalar (α * x)
  | .vector v => .vector (smulVec α v)
  | .matrix M => .matrix (smulMat α M)

/-- Row-length well-formedness of a value (numpy arrays are rectangular). -/
def Value.wf : Value → Prop
  | .scalar _ => True
  | .vector _ => True
  | .matrix M => ∀ row ∈ M, row.length = cols M

/-- Modelled from the spec: broadcasting of numpy shapes, restricted to the
cases the dispatch table uses (a scalar with anything, equal shapes). -/
def broadcastShapes : List ℕ → List ℕ → Option (List ℕ)
  | [], t => some t
  | s, [] => some s
  | s, t => if s = t then some s else none

/-- Modelled from the spec: broadcast addition of two values; `none` is a
`ShapeError`. -/
def Value.bcastAdd : Value → Value → Option Value
  | .scalar a, .scalar b => some (.scalar (a + b))
  | .scalar a, .vector v => some (.vector (v.map (fun x => a + x)))
  | .vector v, .scalar a => some (.vector (v.map (fun x => x + a)))
  | .vector v, .vector w =>
      if v.length = w.length then some (.vector (addVec v w)) else none
  | .scalar a, .matrix M => some (.matrix (M.map (fun r => r.map (fun x => a + x))))
  | .matrix M, .scalar a => some (.matrix (M.map (fun r => r.map (fun x => x + a))))
  | .matrix M, .matrix N =>
      if M.length = N.length ∧ cols M = cols N then some (.matrix (addMat M N)) else none
  | _, _ => none

/-- Modelled from the spec: the Normal (Gaussian) distribution holds a mean
value and a covariance (dense or operator-structured). -/
structure Normal where
  mean : Value
  cov : Covariance

/-- Modelled from the spec: `shift(b)` adds a constant to the mean and
keeps the covariance unchanged. -/
def Normal.shift (d : Normal) (b : Value) : Option Normal :=
  (Value.bcastAdd d.mean b).map (fun m => { mean := m, cov := d.cov })

/-- Modelled from the spec: `scale(alpha)` scales the mean by `alpha` and
the covariance by `alpha²`. -/
def Normal.scale (α : ℚ) (d : Normal) : Normal :=
  { mean := d.mean.scale α, cov := d.cov.scale α }

/-- Modelled from the spec: a random variable is a declared shape together
with its distribution. -/
structure RandomVariable where
  shape : List ℕ
  distribution : Normal

/-- Mean accessor of a random variable. -/
def RandomVariable.mean (rv : RandomVariable) : Value := rv.distribution.mean

/-- Covariance accessor of a random variable. -/
def RandomVariable.cov (rv : RandomVariable) : Covariance := rv.distribution.cov

/-- Modelled from the spec: the congruence transform `P · C · Pᵀ` of a
covariance, computed through the structured `apply` of the covariance on
the rows of `P`, never materializing `C`. -/
def covAffine (P : Mat) (C : Covariance) : Mat :=
  P.map (fun pi => P.map (fun pj => dot pi (C.applyCore pj)))

/-- Modelled from the spec: dispatch row `rv + x` / `x + rv` (shift by a
broadcastable constant). -/
def addRV (rv : RandomVariable) (x : Value) : Option RandomVariable :=
  match broadcastShapes rv.shape x.shape, rv.distribution.shift x with
  | some s, some d => some { shape := s, distribution := d }
  | _, _ => none

/-- Modelled from the spec: dispatch row `x + rv`, delegating to the same
shift. -/
def raddRV (x : Value) (rv : RandomVariable) : Option RandomVariable := addRV rv x

/-- Modelled from the spec: dispatch row `rv - x` as a shift by `-x`. -/
def subRV (rv : RandomVariable) (x : Value) : Option RandomVariable :=
  addRV rv (x.scale (-1))

/-- Modelled from the spec: dispatch row `alpha * rv` / `rv * alpha`. -/
def scalarMulRV (α : ℚ) (rv : RandomVariable) : RandomVariable :=
  { shape := rv.shape, distribution := rv.distribution.scale α }

/-- Modelled from the spec: dispatch row `rv * alpha`. -/
def mulScalarRV (rv : RandomVariable) (α : ℚ) : RandomVariable := scalarMulRV α rv

/-- Modelled from the spec: dispatch row `A @ rv` for a constant matrix `A`
and a vector-variate `rv`, an affine transform with `mean' = A · mean` and
`cov' = A · cov · Aᵀ`. -/
def matmulRV (A : Mat) (rv : RandomVariable) : Option RandomVariable :=
  match rv.distribution.mean with
  | .vector v =>
      if cols A = v.length then
        some { shape := [A.length],
               distribution := { mean := .vector (matvec A v),
                                 cov := .dense (covAffine A rv.distribution.cov) } }
      else none
  | _ => none

/-- Modelled from the spec: dispatch row `rv @ x` for a column matrix `x`.
A vector-variate `rv` yields a scalar-shaped dot product; a matrix-variate
`rv` yields an `(n, 1)`-shaped product whose covariance is the congruence
transform by `(I ⊗ x)ᵀ`. -/
def rmatmulRV (rv : RandomVariable) (X : Mat) : Option RandomVariable :=
  match rv.distribution.mean with
  | .vector v =>
      if X.length = v.length ∧ cols X = 1 then
        some { shape := [],
               distribution :=
                 { mean := .scalar (dot v (X.map (fun r => r.headD 0))),
                   cov := .dense [[dot (X.map (fun r => r.headD 0))
                     (rv.distribution.cov.applyCore (X.map (fun r => r.headD 0)))]] } }
      else none
  | .matrix M =>
      if X.length = cols M ∧ cols X = 1 then
        some { shape := [M.length, 1],
               distribution :=
                 { mean := .matrix (matmul M X),
                   cov := .dense (covAffine (transposeM (kron (eyeM M.length) X))
                                            rv.distribution.cov) } }
      else none
  | _ => none

/-- Modelled from the spec: dispatch row `L @ rv` for a `LinearOperator`
`L`, an affine transform whose mean uses the structured `apply`. -/
def linopMulRV (L : LinearOp) (rv : RandomVariable) : Option RandomVariable :=
  match rv.distribution.mean with
  | .vector v =>
      if L.colsOp = v.length then
        some { shape := [L.rows],
               distribution := { mean := .vector (L.applyCore v),
                                 cov := .dense (covAffine L.todense rv.distribution.cov) } }
      else none
  | _ => none

/-- Modelled from the spec: dispatch row `rv1 + rv2` under the documented
independence assumption: means add and covariances add. -/
def addRVRV (rv1 rv2 : RandomVariable) : Option RandomVariable :=
  if rv1.shape = rv2.shape then
    match Value.bcastAdd rv1.distribution.mean rv2.distribution.mean with
    | some m =>
        some { shape := rv1.shape,
               distribution :=
                 { mean := m,
                   cov := .dense (addMat rv1.distribution.cov.todense
                                         rv2.distribution.cov.todense) } }
    | none => none
  else none

/-- Well-formedness of a square covariance of dimension `n`. -/
def CovWf : Covariance → ℕ → Prop
  | .dense M, n => Wf M n n
  | .op (.matrixMult A), n => Wf A n n
  | .op (.symmetricKronecker A B), n =>
      Wf A A.length A.length ∧ Wf B A.length A.length ∧ n = A.length * A.length

/-- Well-formedness of a linear operator of shape `r × c`. -/
def LinOpWf : LinearOp → ℕ → ℕ → Prop
  | .matrixMult M, r, c => Wf M r c
  | .symmetricKronecker A B, r, c =>
      Wf A A.length A.length ∧ Wf B A.length A.length ∧
      r = A.length * A.length ∧ c = A.length * A.length

/-- Well-formedness of a random variable: the declared shape matches the
mean, the mean is rectangular, and the covariance is square of the mean
size. -/
def RVWf (rv : RandomVariable) : Prop :=
  rv.shape = rv.distribution.mean.shape ∧ rv.distribution.mean.wf ∧
  CovWf rv.distribution.cov rv.distribution.mean.size

/-- Modelled from the spec: scalar inputs to the coercion layer, including
the non-finite floating-point values NaN and ±infinity. -/
inductive FloatScalar where
  | finite (q : ℚ)
  | nan
  | posInf
  | negInf

/-- Finiteness of a float scalar. -/
def FloatScalar.isFinite : FloatScalar → Bool
  | .finite _ => true
  | _ => false

/-- Modelled from the spec: inputs accepted by `as_random_variable`; a
non-numeric input cannot be coerced to a floating-point kind. -/
inductive CoercionInput where
  | num (x : FloatScalar)
  | array (v : Vec)
  | nonNumeric (desc : String)

/-- Modelled from the spec: a coerced mean, either a scalar (possibly
non-finite) or an array of finite entries. -/
inductive ExtValue where
  | exScalar (x : FloatScalar)
  | exArray (v : Vec)

/-- Modelled from the spec: the result of coercing a constant, a degenerate
random variable whose mean may be non-finite and whose covariance is zero. -/
structure DegenerateRV where
  mean : ExtValue
  covZero : Mat

/-- Modelled from the spec: `as_random_variable` (the excerpt calls it
`probability.asrandvar`, absent from the excerpt) coerces a number or array
to a degenerate random variable with zero covariance, accepting non-finite
scalars, and fails (`none`, a `TypeError`) on non-numeric input. -/
def asrandvar : CoercionInput → Option DegenerateRV
  | .num x => some { mean := .exScalar x, covZero := zerosM 1 1 }
  | .array v => some { mean := .exArray v, covZero := zerosM v.length v.length }
  | .nonNumeric _ => none

/-- Operand kinds of the arithmetic dispatch table, each carrying its
operand; `rv op` applies the operation to a random variable. -/
inductive OpKind where
  | addConst (x : Value)
  | raddConst (x : Value)
  | subConst (x : Value)
  | scalarMul (α : ℚ)
  | matMul (A : Mat)
  | rmatMul (X : Mat)
  | linopMul (L : LinearOp)
  | addRand (rv2 : RandomVariable)

/-- Applies one dispatch-table operation to a random variable; scalar
multiplication never fails, the others guard their shapes. -/
def applyOp : OpKind → RandomVariable → Option RandomVariable
  | .addConst x, rv => addRV rv x
  | .raddConst x, rv => raddRV x rv
  | .subConst x, rv => subRV rv x
  | .scalarMul α, rv => some (scalarMulRV α rv)
  | .matMul A, rv => matmulRV A rv
  | .rmatMul X, rv => rmatmulRV rv X
  | .linopMul L, rv => linopMulRV L rv
  | .addRand rv2, rv => addRVRV rv rv2

/-- Well-formedness of the operand carried by a dispatch operation. -/
def OpKind.wf : OpKind → Prop
  | .addConst x => x.wf
  | .raddConst x => x.wf
  | .subConst x => x.wf
  | .scalarMul _ => True
  | .matMul A => ∀ r ∈ A, r.length = cols A
  | .rmatMul X => ∀ r ∈ X, r.length = cols X
  | .linopMul L => LinOpWf L L.rows L.colsOp
  | .addRand rv2 => RVWf rv2

/-- Python exception values reaching the observer: a `TypeError` with a
message and an optional `__cause__`, or some other exception class. -/
inductive PyError where
  | typeError (msg : String) (cause : Option PyError)
  | otherError (msg : String)

/-- Tests whether an exception is of the `TypeError` class. -/
def PyError.isTypeError : PyError → Bool
  | .typeError _ _ => true
  | .otherError _ => false

/-- Python values an objective function may return to the observer: a
float-like value, or one whose cast to `np.floating` raises `TypeError`. -/
inductive PyObj where
  | floatLike (x : ℚ)
  | nonCastable (desc : String)

/-- Modelled from the spec: `utils.as_numpy_scalar` (absent from the
excerpt) casts a value to a floating-point scalar and raises a
`TypeError` when the cast is impossible. -/
def as_numpy_scalar : PyObj → Except PyError ℚ
  | .floatLike x => .ok x
  | .nonCastable d => .error (.typeError ("float() argument must be a number, not " ++ d) none)

/-- Message of the wrapped cast error raised by `function_evaluation`
(verbatim from `observation_operators.py`). -/
def castErrorMessage : String :=
  "The given argument `p` can not be cast to a `np.floating` object."

/-- Translated from `docs/source/development/quadopt_example/observation_operators.py`:
`function_evaluation` with the call to `utils.as_numpy_scalar` abstracted
as `cast`.  The call `fun(action)` sits outside the `try` block; only a
`TypeError` from the cast is caught and re-raised with the original error
as its cause. -/
def functionEvaluationWith (cast : PyObj → Except PyError ℚ)
    (f : ℚ → Except PyError PyObj) (action : ℚ) : Except PyError ℚ :=
  match f action with
  | .error e => .error e
  | .ok observation =>
      match cast observation with
      | .ok x => .ok x
      | .error (.typeError m c) =>
          .error (.typeError castErrorMessage (some (.typeError m c)))
      | .error (.otherError m) => .error (.otherError m)

/-- Translated from `observation_operators.py`: the concrete observer,
casting through `as_numpy_scalar`. -/
def function_evaluation (f : ℚ → Except PyError PyObj) (action : ℚ) :
    Except PyError ℚ :=
  functionEvaluationWith as_numpy_scalar f action

/-! Basic lemmas about the vector operations. -/

theorem dot_nil_left (w : Vec) : dot [] w = 0 := rfl

theorem dot_nil_right (v : Vec) : dot v [] = 0 := by
  cases v <;> rfl

theorem dot_cons (a b : ℚ) (v w : Vec) :
    dot (a :: v) (b :: w) = a * b + dot v w := by
  simp [dot]

theorem dot_comm (v w : Vec) : dot v w = dot w v := by
  induction v generalizing w with
  | nil => cases w <;> simp [dot]
  | cons a v ih =>
      cases w with
      | nil => simp [dot]
      | cons b w => simp only [dot_cons, ih, mul_comm]

theorem dot_append (v w x y : Vec) (h : v.length = x.length) :
    dot (v ++ w) (x ++ y) = dot v x + dot w y := by
  induction v generalizing x with
  | nil =>
      cases x with
      | nil => simp [dot_nil_left]
      | cons c x => simp at h
  | cons a v ih =>
      cases x with
      | nil => simp at h
      | cons c x =>
          simp only [List.cons_append, dot_cons]
          rw [ih x (by simpa using h)]
          ring

theorem smulVec_length (a : ℚ) (v : Vec) : (smulVec a v).length = v.length := by
  simp [smulVec]

theorem addVec_nil_left (w : Vec) : addVec [] w = w := by
  cases w <;> rfl

theorem addVec_nil_right (v : Vec) : addVec v [] = v := by
  cases v <;> rfl

theorem addVec_cons (a b : ℚ) (v w : Vec) :
    addVec (a :: v) (b :: w) = (a + b) :: addVec v w := rfl

theorem addVec_length (v w : Vec) : (addVec v w).length = max v.length w.length := by
  induction v generalizing w with
  | nil => simp [addVec_nil_left]
  | cons a v ih =>
      cases w with
      | nil => simp [addVec_nil_right]
      | cons b w => simp [addVec_cons, ih, Nat.succ_max_succ]

theorem dot_smulVec_left (a : ℚ) (v w : Vec) :
    dot (smulVec a v) w = a * dot v w := by
  induction v generalizing w with
  | nil => simp [smulVec, dot]
  | cons c v ih =>
      cases w with
      | nil => simp [dot_nil_right]
      | cons b w =>
          simp only [smulVec, List.map_cons, dot_cons] at *
          rw [ih]
          ring

theorem dot_smulVec_right (a : ℚ) (v w : Vec) :
    dot v (smulVec a w) = a * dot v w := by
  rw [dot_comm, dot_smulVec_left, dot_comm]

theorem dot_addVec_left (u v w : Vec) :
    dot (addVec u v) w = dot u w + dot v w := by
  induction u generalizing v w with
  | nil => simp [addVec_nil_left, dot_nil_left]
  | cons a u ih =>
      cases v with
      | nil => simp [addVec_nil_right, dot_nil_left]
      | cons b v =>
          cases w with
          | nil => simp [dot_nil_right]
          | cons c w =>
              simp only [addVec_cons, dot_cons]
              rw [ih]
              ring

theorem addVec_getD (u v : Vec) (i : ℕ) :
    (addVec u v).getD i 0 = u.getD i 0 + v.getD i 0 := by
  induction u generalizing v i with
  | nil => simp [addVec_nil_left]
  | cons a u ih =>
      cases v with
      | nil => simp [addVec_nil_right]
      | cons b v =>
          cases i with
          | zero => simp [addVec_cons]
          | succ i => simpa [addVec_cons] using ih v i

theorem smulVec_getD (a : ℚ) (v : Vec) (i : ℕ) :
    (smulVec a v).getD i 0 = a * v.getD i 0 := by
  induction v generalizing i with
  | nil => simp [smulVec]
  | cons c v ih =>
      cases i with
      | zero => simp [smulVec]
      | succ i => simpa [smulVec] using ih i

theorem smulVec_addVec (a : ℚ) (u v : Vec) :
    smulVec a (addVec u v) = addVec (smulVec a u) (smulVec a v) := by
  induction u generalizing v with
  | nil => simp [addVec_nil_left, smulVec]
  | cons c u ih =>
      cases v with
      | nil => simp [addVec_nil_right, smulVec]
      | cons b v =>
          simp only [addVec_cons, smulVec, List.map_cons] at *
          rw [show a * (c + b) = a * c + a * b by ring]
          exact congrArg _ (by simpa [smulVec] using ih v)

theorem smulVec_smulVec (a b : ℚ) (v : Vec) :
    smulVec a (smulVec b v) = smulVec (a * b) v := by
  simp [smulVec, Function.comp, mul_assoc]

theorem addVec_append (u v x y : Vec) (h : u.length = x.length) :
    addVec (u ++ v) (x ++ y) = addVec u x ++ addVec v y := by
  induction u generalizing x with
  | nil =>
      cases x with
      | nil => simp [addVec_nil_left]
      | cons c x => simp at h
  | cons a u ih =>
      cases x with
      | nil => simp at h
      | cons c x =>
          simp only [List.cons_append, addVec_cons]
          rw [ih x (by simpa using h)]

theorem vecMat_getD (q : Vec) (M : Mat) (k : ℕ) :
    (vecMat q M).getD k 0 = dot q (M.map (fun r => r.getD k 0)) := by
  induction q generalizing M with
  | nil => simp [vecMat, dot_nil_left]
  | cons a q ih =>
      cases M with
      | nil => simp [vecMat, dot_nil_right]
      | cons row M =>
          simp only [vecMat, List.map_cons, dot_cons]
          rw [addVec_getD, smulVec_getD, ih]

theorem dot_vecMat (r : Vec) (M : Mat) (v : Vec) :
    dot (vecMat r M) v = dot r (matvec M v) := by
  induction r generalizing M with
  | nil => simp [vecMat, dot_nil_left]
  | cons a r ih =>
      cases M with
      | nil => simp [vecMat, matvec, dot_nil_left, dot_nil_right]
      | cons row M =>
          simp only [vecMat, matvec, List.map_cons, dot_cons]
          rw [dot_addVec_left, dot_smulVec_left, ih, matvec]

/-! Lemmas about the matrix operations. -/

theorem matvec_length (M : Mat) (v : Vec) : (matvec M v).length = M.length := by
  simp [matvec]

theorem matvec_append (P Q : Mat) (v : Vec) :
    matvec (P ++ Q) v = matvec P v ++ matvec Q v := by
  simp [matvec]

theorem matvec_smulMat (a : ℚ) (M : Mat) (v : Vec) :
    matvec (smulMat a M) v = smulVec a (matvec M v) := by
  simp only [matvec, smulMat, smulVec, List.map_map]
  exact List.map_congr_left (fun r _ => dot_smulVec_left a r v)

theorem matvec_addMat (M N : Mat) (h : M.length = N.length) (v : Vec) :
    matvec (addMat M N) v = addVec (matvec M v) (matvec N v) := by
  induction M generalizing N with
  | nil =>
      cases N with
      | nil => simp [matvec, addMat, addVec_nil_left]
      | cons n N => simp at h
  | cons m M ih =>
      cases N with
      | nil => simp at h
      | cons n N =>
          simp only [addMat, List.zipWith_cons_cons, matvec, List.map_cons, addVec_cons]
          rw [dot_addVec_left]
          exact congrArg _ (ih N (by simpa using h))

theorem vec_nil : vec [] = [] := rfl

theorem vec_cons (r : Vec) (M : Mat) : vec (r :: M) = r ++ vec M := by
  simp [vec]

theorem vec_length (M : Mat) (c : ℕ) (h : ∀ r ∈ M, r.length = c) :
    (vec M).length = M.length * c := by
  induction M with
  | nil => simp [vec]
  | cons r M ih =>
      have hr : r.length = c := h r (by simp)
      have hrec := ih (fun r hr => h r (by simp [hr]))
      simp only [vec_cons, List.length_append, List.length_cons, hr, hrec]
      ring

theorem vec_smulMat (a : ℚ) (M : Mat) : vec (smulMat a M) = smulVec a (vec M) := by
  induction M with
  | nil => simp [vec, smulMat, smulVec]
  | cons r M ih =>
      simp only [smulMat, List.map_cons, vec_cons, smulVec, List.map_append] at *
      rw [ih]

theorem vec_addMat (M N : Mat) (c : ℕ) (hlen : M.length = N.length)
    (hM : ∀ r ∈ M, r.length = c) (hN : ∀ r ∈ N, r.length = c) :
    vec (addMat M N) = addVec (vec M) (vec N) := by
  induction M generalizing N with
  | nil =>
      cases N with
      | nil => simp [addMat, vec, addVec_nil_left]
      | cons n N => simp at hlen
  | cons m M ih =>
      cases N with
      | nil => simp at hlen
      | cons n N =>
          simp only [addMat, List.zipWith_cons_cons, vec_cons]
          rw [addVec_append m (vec M) n (vec N)
                (by rw [hM m (by simp), hN n (by simp)])]
          have := ih N (by simpa using hlen)
            (fun r hr => hM r (by simp [hr])) (fun r hr => hN r (by simp [hr]))
          simp only [addMat] at this
          rw [this]

theorem unvecAux_length (m n : ℕ) (v : Vec) : (unvecAux m n v).length = m := by
  induction m generalizing v with
  | zero => rfl
  | succ m ih => simp [unvecAux, ih]

theorem unvecAux_join (m n : ℕ) (v : Vec) (h : v.length = m * n) :
    vec (unvecAux m n v) = v := by
  induction m generalizing v with
  | zero =>
      have : v = [] := List.length_eq_zero.mp (by simpa using h)
      simp [this, unvecAux, vec]
  | succ m ih =>
      simp only [unvecAux, vec_cons]
      rw [ih (v.drop n) (by simp only [List.length_drop, h]; ring_nf; omega)]
      exact List.take_append_drop n v

theorem unvecAux_rows (m n : ℕ) (v : Vec) (h : v.length = m * n) :
    ∀ r ∈ unvecAux m n v, r.length = n := by
  induction m generalizing v with
  | zero => simp [unvecAux]
  | succ m ih =>
      simp only [unvecAux, List.mem_cons]
      rintro r (rfl | hr)
      · rw [List.length_take, h]
        exact Nat.min_eq_left (Nat.le_mul_of_pos_left n (Nat.succ_pos m))
      · exact ih (v.drop n) (by simp only [List.length_drop, h]; ring_nf; omega) r hr

theorem flatMap_smulVec_length (ar br : Vec) :
    (ar.flatMap (fun a => smulVec a br)).length = ar.length * br.length := by
  induction ar with
  | nil => simp
  | cons a ar ih => simp [ih, smulVec_length]; ring

theorem kron_nil (B : Mat) : kron [] B = [] := rfl

theorem kron_cons (ar : Vec) (A B : Mat) :
    kron (ar :: A) B = B.map (fun br => ar.flatMap (fun a => smulVec a br)) ++ kron A B := by
  simp [kron]

theorem kron_length (A B : Mat) : (kron A B).length = A.length * B.length := by
  induction A with
  | nil => simp [kron_nil]
  | cons ar A ih => simp [kron_cons, ih]; ring

theorem kron_rows (A B : Mat) (p r : ℕ) (hA : ∀ a ∈ A, a.length = p)
    (hB : ∀ b ∈ B, b.length = r) : ∀ row ∈ kron A B, row.length = p * r := by
  intro row hrow
  simp only [kron, List.mem_flatMap, List.mem_map] at hrow
  obtain ⟨ar, har, br, hbr, rfl⟩ := hrow
  rw [flatMap_smulVec_length, hA ar har, hB br hbr]

theorem kron_core_row (ar br : Vec) (X : Mat) (c : ℕ) (hbr : br.length = c)
    (hX : ∀ row ∈ X, row.length = c) :
    dot (ar.flatMap (fun a => smulVec a br)) (vec X) = dot (vecMat ar X) br := by
  induction ar generalizing X with
  | nil => simp [vecMat, dot_nil_left]
  | cons a ar ih =>
      cases X with
      | nil => simp [vecMat, vec, dot_nil_right, dot_nil_left]
      | cons row X =>
          simp only [List.flatMap_cons, vec_cons, vecMat]
          rw [dot_append _ _ _ _ (by rw [smulVec_length, hbr, hX row (by simp)])]
          rw [dot_smulVec_left, ih X (fun r hr => hX r (by simp [hr]))]
          rw [dot_addVec_left, dot_smulVec_left, dot_comm br row]

theorem kron_core (A B X : Mat) (c : ℕ) (hB : ∀ b ∈ B, b.length = c)
    (hX : ∀ row ∈ X, row.length = c) :
    matvec (kron A B) (vec X) = vec (matmulT (matmul A X) B) := by
  induction A with
  | nil => rfl
  | cons ar A ih =>
      simp only [kron_cons, matvec_append, matmul, List.map_cons, matmulT, vec_cons]
      have hinner : matvec (B.map (fun br => ar.flatMap (fun a => smulVec a br))) (vec X)
          = B.map (fun br => dot (vecMat ar X) br) := by
        simp only [matvec, List.map_map]
        exact List.map_congr_left
          (fun br hbr => kron_core_row ar br X c (hB br hbr) hX)
      rw [hinner]
      exact congrArg _ (by simpa only [matmul, matmulT] using ih)

/-! Transpose machinery and structured-apply correctness. -/

theorem getD_map_of_lt (l : Mat) (f : Vec → ℚ) (i : ℕ) (h : i < l.length) :
    (l.map f).getD i 0 = f (l.get ⟨i, h⟩) := by
  rw [List.getD_eq_getElem _ _ (by simpa using h)]
  simp

theorem range_map_getD (l : Vec) : (List.range l.length).map (fun j => l.getD j 0) = l := by
  apply List.ext_getElem (by simp)
  intro i h1 h2
  simp only [List.getElem_map, List.getElem_range]
  exact List.getD_eq_getElem l 0 h2

theorem transposeM_length (M : Mat) : (transposeM M).length = cols M := by
  simp [transposeM]

theorem transposeM_rows (M : Mat) : ∀ r ∈ transposeM M, r.length = M.length := by
  intro r hr
  simp only [transposeM, List.mem_map, List.mem_range] at hr
  obtain ⟨j, hj, rfl⟩ := hr
  simp

theorem transposeM_getElem (M : Mat) (j : ℕ) (h : j < (transposeM M).length) :
    (transposeM M).get ⟨j, h⟩ = M.map (fun r => r.getD j 0) := by
  simp [transposeM]

theorem vecMat_length_le (q : Vec) (M : Mat) (c : ℕ)
    (hrows : ∀ r ∈ M, r.length = c) : (vecMat q M).length ≤ c := by
  induction q generalizing M with
  | nil => simp [vecMat]
  | cons a q ih =>
      cases M with
      | nil => simp [vecMat]
      | cons row M =>
          simp only [vecMat, addVec_length, smulVec_length, hrows row (by simp)]
          exact max_le (le_refl c) (ih M (fun r hr => hrows r (by simp [hr])))

theorem vecMat_length (q : Vec) (M : Mat) (c : ℕ) (hq : q ≠ []) (hM : M ≠ [])
    (hrows : ∀ r ∈ M, r.length = c) : (vecMat q M).length = c := by
  cases q with
  | nil => exact absurd rfl hq
  | cons a q =>
      cases M with
      | nil => exact absurd rfl hM
      | cons row M =>
          simp only [vecMat, addVec_length, smulVec_length, hrows row (by simp)]
          exact Nat.max_eq_left (vecMat_length_le q M c (fun r hr => hrows r (by simp [hr])))

theorem vecMat_transposeM (q : Vec) (A : Mat) (hA : ∀ r ∈ A, r.length = cols A)
    (hq : q ≠ []) (h0 : 0 < cols A) :
    vecMat q (transposeM A) = A.map (fun ar => dot q ar) := by
  have hTne : transposeM A ≠ [] := by
    intro hcontra
    have := transposeM_length A
    rw [hcontra] at this
    simp at this
    omega
  apply List.ext_getElem
  · rw [vecMat_length q (transposeM A) A.length hq hTne (transposeM_rows A)]
    simp
  · intro i h1 h2
    have hiA : i < A.length := by simpa using h2
    rw [← List.getD_eq_getElem _ 0 h1, vecMat_getD]
    rw [← List.getD_eq_getElem _ 0 h2, getD_map_of_lt A _ i hiA]
    have hmapeq : (transposeM A).map (fun r => r.getD i 0)
        = (List.range (cols A)).map (fun j => (A.get ⟨i, hiA⟩).getD j 0) := by
      simp only [transposeM, List.map_map]
      refine List.map_congr_left (fun j hj => ?_)
      simp only [Function.comp_apply]
      exact getD_map_of_lt A _ i hiA
    rw [hmapeq]
    rw [show cols A = (A.get ⟨i, hiA⟩).length from (hA _ (A.get_mem _ _)).symm]
    rw [range_map_getD]

theorem transposeM_dots (q : Vec) (K : Mat) (hK : ∀ r ∈ K, r.length = cols K)
    (hq : q ≠ []) (hKne : K ≠ []) :
    (transposeM K).map (fun tr => dot q tr) = vecMat q K := by
  apply List.ext_getElem
  · rw [vecMat_length q K (cols K) hq hKne hK]
    simp [transposeM_length]
  · intro j h1 h2
    have hj : j < (transposeM K).length := by simpa using h1
    rw [← List.getD_eq_getElem _ 0 h1, getD_map_of_lt (transposeM K) _ j hj]
    rw [← List.getD_eq_getElem _ 0 h2, vecMat_getD, transposeM_getElem]

theorem matmul_transposeM (Q A : Mat) (hA : ∀ r ∈ A, r.length = cols A)
    (h0 : 0 < cols A) (hQ : ∀ q ∈ Q, q ≠ []) :
    matmul Q (transposeM A) = matmulT Q A := by
  simp only [matmul, matmulT]
  exact List.map_congr_left (fun q hq => vecMat_transposeM q A hA (hQ q hq) h0)

theorem matmulT_transposeM (Q K : Mat) (hK : ∀ r ∈ K, r.length = cols K)
    (hKne : K ≠ []) (hQ : ∀ q ∈ Q, q ≠ []) :
    matmulT Q (transposeM K) = matmul Q K := by
  simp only [matmul, matmulT]
  exact List.map_congr_left (fun q hq => transposeM_dots q K hK (hQ q hq) hKne)

/-! Structured covariance application agrees with the dense matrix. -/

theorem Wf_cols (M : Mat) (r c : ℕ) (h : Wf M r c) (hr : 0 < r) : cols M = c := by
  obtain ⟨hlen, hrows⟩ := h
  cases M with
  | nil => rw [← hlen] at hr; simp at hr
  | cons row M => simpa [cols] using hrows row (by simp)

theorem addMat_length (M N : Mat) : (addMat M N).length = min M.length N.length := by
  simp [addMat]

theorem addMat_rows (M N : Mat) (c : ℕ) (hM : ∀ r ∈ M, r.length = c)
    (hN : ∀ r ∈ N, r.length = c) : ∀ r ∈ addMat M N, r.length = c := by
  induction M generalizing N with
  | nil => intro r hr; simp [addMat] at hr
  | cons m M ih =>
      intro r hr
      cases N with
      | nil => simp [addMat] at hr
      | cons n N =>
          simp only [addMat, List.zipWith_cons_cons, List.mem_cons] at hr
          rcases hr with rfl | hr
          · rw [addVec_length, hM m (by simp), hN n (by simp)]
            simp
          · exact ih N (fun r h => hM r (by simp [h])) (fun r h => hN r (by simp [h])) r hr

theorem smulMat_length (a : ℚ) (M : Mat) : (smulMat a M).length = M.length := by
  simp [smulMat]

theorem smulMat_rows (a : ℚ) (M : Mat) (c : ℕ) (hM : ∀ r ∈ M, r.length = c) :
    ∀ r ∈ smulMat a M, r.length = c := by
  intro r hr
  simp only [smulMat, List.mem_map] at hr
  obtain ⟨r0, hr0, rfl⟩ := hr
  rw [smulVec_length]
  exact hM r0 hr0

theorem matmul_length (A X : Mat) : (matmul A X).length = A.length := by
  simp [matmul]

theorem matmulT_length (Q B : Mat) : (matmulT Q B).length = Q.length := by
  simp [matmulT]

theorem matmulT_rows (Q B : Mat) : ∀ r ∈ matmulT Q B, r.length = B.length := by
  intro r hr
  simp only [matmulT, List.mem_map] at hr
  obtain ⟨q, hq, rfl⟩ := hr
  simp

theorem symKron_applyCore (A B : Mat) (k : ℕ) (x : Vec) (hA : Wf A k k) (hB : Wf B k k)
    (hk : 0 < k) (hx : x.length = k * k) :
    LinearOp.applyCore (.symmetricKronecker A B) x
      = matvec (LinearOp.todense (.symmetricKronecker A B)) x := by
  obtain ⟨hAlen, hArows⟩ := hA
  obtain ⟨hBlen, hBrows⟩ := hB
  have hcolsB : cols B = k := Wf_cols B k k ⟨hBlen, hBrows⟩ hk
  have hunvec : unvec (cols B) x = unvecAux k k x := by
    rw [hcolsB, unvec, hx, Nat.mul_div_cancel _ hk]
  have hXrows : ∀ r ∈ unvecAux k k x, r.length = k := unvecAux_rows k k x hx
  have hXjoin : vec (unvecAux k k x) = x := unvecAux_join k k x hx
  have hM1rows : ∀ r ∈ matmulT (matmul A (unvecAux k k x)) B, r.length = k := by
    intro r hr
    rw [matmulT_rows _ _ r hr, hBlen]
  have hM2rows : ∀ r ∈ matmulT (matmul B (unvecAux k k x)) A, r.length = k := by
    intro r hr
    rw [matmulT_rows _ _ r hr, hAlen]
  simp only [LinearOp.applyCore, LinearOp.todense, hunvec]
  rw [vec_smulMat,
      vec_addMat _ _ k
        (by rw [matmulT_length, matmulT_length, matmul_length, matmul_length, hAlen, hBlen])
        hM1rows hM2rows]
  rw [matvec_smulMat,
      matvec_addMat _ _ (by rw [kron_length, kron_length, hAlen, hBlen, Nat.mul_comm])]
  conv_rhs => rw [← hXjoin, kron_core A B (unvecAux k k x) k hBrows hXrows,
      kron_core B A (unvecAux k k x) k hArows hXrows]

theorem applyCore_todense (C : Covariance) (n : ℕ) (x : Vec) (hC : CovWf C n)
    (hn : 0 < n) (hx : x.length = n) :
    C.applyCore x = matvec C.todense x := by
  cases C with
  | dense M => rfl
  | op L =>
      cases L with
      | matrixMult A => rfl
      | symmetricKronecker A B =>
          obtain ⟨hA, hB, hn2⟩ := hC
          have hk : 0 < A.length := by
            rcases Nat.eq_zero_or_pos A.length with h | h
            · rw [hn2, h] at hn
              simp at hn
            · exact h
          simpa only [Covariance.applyCore, Covariance.todense]
            using symKron_applyCore A B A.length x hA hB hk (by rw [hx, hn2])

theorem covAffine_eq (P : Mat) (C : Covariance) (n : ℕ) (hC : CovWf C n) (hn : 0 < n)
    (hP : ∀ p ∈ P, p.length = n) :
    covAffine P C = matmulT (matmul P C.todense) P := by
  simp only [covAffine, matmul, matmulT, List.map_map]
  refine List.map_congr_left (fun pi hpi => ?_)
  simp only [Function.comp_apply]
  refine List.map_congr_left (fun pj hpj => ?_)
  rw [applyCore_todense C n pj hC hn (hP pj hpj)]
  exact (dot_vecMat pi C.todense pj).symm

theorem todense_wf (C : Covariance) (n : ℕ) (hC : CovWf C n) : Wf C.todense n n := by
  cases C with
  | dense M => exact hC
  | op L =>
      cases L with
      | matrixMult A => exact hC
      | symmetricKronecker A B =>
          obtain ⟨⟨hAlen, hArows⟩, ⟨hBlen, hBrows⟩, hn2⟩ := hC
          constructor
          · simp only [Covariance.todense, LinearOp.todense, smulMat_length, addMat_length,
              kron_length, hAlen, hBlen, Nat.mul_comm, Nat.min_self]
            omega
          · intro r hr
            simp only [Covariance.todense, LinearOp.todense] at hr
            have step := smulMat_rows (1 / 2) (addMat (kron A B) (kron B A)) (A.length * A.length)
              (addMat_rows _ _ _
                (by simpa [hAlen, hBlen] using kron_rows A B A.length A.length hArows hBrows)
                (by simpa [hAlen, hBlen, Nat.mul_comm] using kron_rows B A A.length A.length hBrows hArows))
            rw [hn2]
            exact step r hr

/-! Scaling algebra for covariances and values. -/

theorem smulVec_append (a : ℚ) (u v : Vec) :
    smulVec a (u ++ v) = smulVec a u ++ smulVec a v := by
  simp [smulVec]

theorem smulMat_smulMat (a b : ℚ) (M : Mat) :
    smulMat a (smulMat b M) = smulMat (a * b) M := by
  simp only [smulMat, List.map_map]
  exact List.map_congr_left (fun r _ => smulVec_smulVec a b r)

theorem smulMat_addMat (a : ℚ) (M N : Mat) :
    smulMat a (addMat M N) = addMat (smulMat a M) (smulMat a N) := by
  induction M generalizing N with
  | nil => simp [smulMat, addMat]
  | cons m M ih =>
      cases N with
      | nil => simp [smulMat, addMat]
      | cons n N =>
          simp only [addMat, List.zipWith_cons_cons, smulMat, List.map_cons]
          rw [smulVec_addVec]
          refine congrArg _ ?_
          simpa [smulMat, addMat] using ih N

theorem flatMap_smulVec_smul (a : ℚ) (ar br : Vec) :
    (smulVec a ar).flatMap (fun c => smulVec c br)
      = smulVec a (ar.flatMap (fun c => smulVec c br)) := by
  induction ar with
  | nil => simp [smulVec]
  | cons c ar ih =>
      have hhead : smulVec (a * c) br = smulVec a (smulVec c br) := by
        rw [smulVec_smulVec]
      calc (smulVec a (c :: ar)).flatMap (fun c => smulVec c br)
      _ = smulVec (a * c) br ++ (smulVec a ar).flatMap (fun c => smulVec c br) := by
            simp [smulVec]
      _ = smulVec a (smulVec c br) ++ smulVec a (ar.flatMap (fun c => smulVec c br)) := by
            rw [hhead, ih]
      _ = smulVec a ((c :: ar).flatMap (fun c => smulVec c br)) := by
            rw [← smulVec_append, List.flatMap_cons]

theorem flatMap_smulVec_out (a : ℚ) (l : Vec) (f : ℚ → Vec) :
    l.flatMap (fun x => smulVec a (f x)) = smulVec a (l.flatMap f) := by
  induction l with
  | nil => simp [smulVec]
  | cons c l ih => simp only [List.flatMap_cons, smulVec_append, ih]

theorem rowf_smul_right (a : ℚ) (ar br : Vec) :
    ar.flatMap (fun c => smulVec c (smulVec a br))
      = smulVec a (ar.flatMap (fun c => smulVec c br)) := by
  induction ar with
  | nil => simp [smulVec]
  | cons c ar ih =>
      simp only [List.flatMap_cons, smulVec_append, ih]
      rw [smulVec_smulVec, smulVec_smulVec, mul_comm]

theorem kron_smul_left (a : ℚ) (A B : Mat) :
    kron (smulMat a A) B = smulMat a (kron A B) := by
  simp only [kron, smulMat, List.flatMap_map, List.map_flatMap, List.map_map,
    Function.comp_def]
  simp only [flatMap_smulVec_smul]

theorem kron_smul_right (a : ℚ) (A B : Mat) :
    kron A (smulMat a B) = smulMat a (kron A B) := by
  simp only [kron, smulMat, List.map_map, List.map_flatMap, Function.comp_def]
  simp only [rowf_smul_right]

theorem scale_todense (α : ℚ) (C : Covariance) :
    (Covariance.scale α C).todense = smulMat (α ^ 2) C.todense := by
  cases C with
  | dense M => rfl
  | op L =>
      cases L with
      | matrixMult A => rfl
      | symmetricKronecker A B =>
          simp only [Covariance.scale, Covariance.todense, LinearOp.todense]
          rw [kron_smul_left, kron_smul_right, smulMat_smulMat,
              kron_smul_left, kron_smul_right, smulMat_smulMat,
              ← smulMat_addMat, smulMat_smulMat, smulMat_smulMat]
          refine congrArg (smulMat · _) ?_
          ring

theorem cols_smulMat (a : ℚ) (M : Mat) : cols (smulMat a M) = cols M := by
  cases M with
  | nil => rfl
  | cons r M => simp [smulMat, cols, smulVec]

theorem value_scale_shape (α : ℚ) (v : Value) : (Value.scale α v).shape = v.shape := by
  cases v with
  | scalar x => rfl
  | vector v => simp [Value.scale, Value.shape, smulVec_length]
  | matrix M => simp [Value.scale, Value.shape, smulMat_length, cols_smulMat]

theorem value_scale_wf (α : ℚ) (v : Value) (h : v.wf) : (Value.scale α v).wf := by
  cases v with
  | scalar x => trivial
  | vector v => trivial
  | matrix M =>
      intro r hr
      simp only [smulMat, List.mem_map] at hr
      obtain ⟨r0, hr0, rfl⟩ := hr
      rw [smulVec_length, cols_smulMat]
      exact h r0 hr0

/-! Shape bookkeeping lemmas. -/

theorem cols_map_rows (f : ℚ → ℚ) (M : Mat) :
    cols (M.map (fun r => r.map f)) = cols M := by
  cases M with
  | nil => rfl
  | cons r M => simp [cols]

theorem broadcastShapes_self (s : List ℕ) : broadcastShapes s s = some s := by
  cases s with
  | nil => rfl
  | cons a t => simp [broadcastShapes]

theorem bcast_shape (a b m : Value) (s : List ℕ) (ha : a.wf) (hb : b.wf)
    (hm : Value.bcastAdd a b = some m) (hs : broadcastShapes a.shape b.shape = some s) :
    m.shape = s := by
  cases a with
  | scalar x =>
      cases b with
      | scalar y =>
          simp only [Value.bcastAdd, Option.some_inj] at hm
          simp only [Value.shape, broadcastShapes, Option.some_inj] at hs
          subst hm hs
          rfl
      | vector v =>
          simp only [Value.bcastAdd, Option.some_inj] at hm
          simp only [Value.shape, broadcastShapes, Option.some_inj] at hs
          subst hm hs
          simp [Value.shape]
      | matrix M =>
          simp only [Value.bcastAdd, Option.some_inj] at hm
          simp only [Value.shape, broadcastShapes, Option.some_inj] at hs
          subst hm hs
          simp [Value.shape, cols_map_rows]
  | vector v =>
      cases b with
      | scalar y =>
          simp only [Value.bcastAdd, Option.some_inj] at hm
          simp only [Value.shape, broadcastShapes, Option.some_inj] at hs
          subst hm hs
          simp [Value.shape]
      | vector w =>
          simp only [Value.bcastAdd] at hm
          split_ifs at hm with h
          simp only [Option.some_inj] at hm
          subst hm
          simp only [Value.shape, h, broadcastShapes_self, Option.some_inj] at hs
          subst hs
          simp [Value.shape, addVec_length, h]
      | matrix M => simp [Value.bcastAdd] at hm
  | matrix M =>
      cases b with
      | scalar y =>
          simp only [Value.bcastAdd, Option.some_inj] at hm
          simp only [Value.shape, broadcastShapes, Option.some_inj] at hs
          subst hm hs
          simp [Value.shape, cols_map_rows]
      | vector w => simp [Value.bcastAdd] at hm
      | matrix N =>
          simp only [Value.bcastAdd] at hm
          split_ifs at hm with h
          obtain ⟨hlen, hcols⟩ := h
          simp only [Option.some_inj] at hm
          subst hm
          have hshape : (Value.matrix M).shape = (Value.matrix N).shape := by
            simp [Value.shape, hlen, hcols]
          rw [hshape, broadcastShapes_self, Option.some_inj] at hs
          subst hs
          have hc : cols (addMat M N) = cols M := by
            cases M with
            | nil =>
                cases N with
                | nil => rfl
                | cons n N => simp at hlen
            | cons m0 M =>
                cases N with
                | nil => simp at hlen
                | cons n0 N =>
                    simp only [addMat, List.zipWith_cons_cons, cols, List.headD]
                    rw [addVec_length, ha m0 (by simp), hb n0 (by simp)]
                    rw [show cols (m0 :: M) = cols (n0 :: N) from hcols, Nat.max_self]
          simp [Value.shape, addMat_length, hlen, hc, hcols]

theorem symKron_applyCore_length (A B : Mat) (x : Vec) (h : B.length = A.length) :
    (LinearOp.applyCore (.symmetricKronecker A B) x).length = A.length * B.length := by
  simp only [LinearOp.applyCore]
  have hrows : ∀ r ∈ smulMat (1 / 2)
      (addMat (matmulT (matmul A (unvec (cols B) x)) B)
              (matmulT (matmul B (unvec (cols B) x)) A)), r.length = B.length := by
    apply smulMat_rows
    apply addMat_rows
    · exact matmulT_rows _ _
    · intro r hr
      rw [matmulT_rows _ _ r hr, h]
  rw [vec_length _ B.length hrows, smulMat_length, addMat_length, matmulT_length,
      matmulT_length, matmul_length, matmul_length, h, Nat.min_self]

theorem linop_applyCore_length (L : LinearOp) (v : Vec)
    (hop : LinOpWf L L.rows L.colsOp) : (L.applyCore v).length = L.rows := by
  cases L with
  | matrixMult A => simp [LinearOp.applyCore, LinearOp.rows, matvec_length]
  | symmetricKronecker A B =>
      obtain ⟨hA, hB, hr, hc⟩ := hop
      exact symKron_applyCore_length A B v hB.1

/-! Claim theorems. -/

/-- C2: for every random variable `rv` and scalar `alpha`, the products
`alpha * rv` and `rv * alpha` coincide, keep the declared shape of `rv`
(and the shape of its mean), have mean `alpha` times the mean of `rv`, and
have dense covariance `alpha²` times the dense covariance of `rv`. -/
theorem C2_scalar_scale (α : ℚ) (rv : RandomVariable) :
    (scalarMulRV α rv).shape = rv.shape ∧
    mulScalarRV rv α = scalarMulRV α rv ∧
    (scalarMulRV α rv).distribution.mean = rv.distribution.mean.scale α ∧
    (scalarMulRV α rv).distribution.mean.shape = rv.distribution.mean.shape ∧
    (scalarMulRV α rv).distribution.cov.todense
      = smulMat (α ^ 2) rv.distribution.cov.todense :=
  ⟨rfl, rfl, rfl, value_scale_shape α rv.distribution.mean,
    scale_todense α rv.distribution.cov⟩

/-- C4: for every random variable `rv` and broadcastable constant `x`, the
sums `rv + x` and `x + rv` agree, the resulting mean is the broadcast sum
of the mean of `rv` and `x`, and the covariance is exactly the covariance
of `rv`, unchanged. -/
theorem C4_shift_exact (rv : RandomVariable) (x : Value) (z : RandomVariable)
    (h : addRV rv x = some z) :
    raddRV x rv = some z ∧
    Value.bcastAdd rv.distribution.mean x = some z.distribution.mean ∧
    z.distribution.cov = rv.distribution.cov := by
  refine ⟨h, ?_⟩
  unfold addRV at h
  cases hb : broadcastShapes rv.shape x.shape with
  | none => rw [hb] at h; simp at h
  | some s =>
      cases hd : rv.distribution.shift x with
      | none => rw [hb, hd] at h; simp at h
      | some d =>
          rw [hb, hd] at h
          simp only [Option.some_inj] at h
          subst h
          unfold Normal.shift at hd
          cases hm : Value.bcastAdd rv.distribution.mean x with
          | none => rw [hm] at hd; simp at hd
          | some m =>
              rw [hm] at hd
              simp only [Option.map, Option.some_inj] at hd
              subst hd
              exact ⟨rfl, rfl⟩

theorem C4_witness :
    addRV { shape := [2], distribution := { mean := .vector [1, 2], cov := .dense [[2, 0], [0, 5]] } }
        (.vector [1, -5/2])
      = some { shape := [2],
               distribution := { mean := .vector [2, -1/2], cov := .dense [[2, 0], [0, 5]] } } ∧
    raddRV (.vector [1, -5/2])
        { shape := [2], distribution := { mean := .vector [1, 2], cov := .dense [[2, 0], [0, 5]] } }
      = some { shape := [2],
               distribution := { mean := .vector [2, -1/2], cov := .dense [[2, 0], [0, 5]] } } ∧
    Value.bcastAdd (.vector [1, 2]) (.vector [1, -5/2]) = some (.vector [2, -1/2]) := by
  have h : addRV { shape := [2], distribution := { mean := .vector [1, 2], cov := .dense [[2, 0], [0, 5]] } }
        (.vector [1, -5/2])
      = some { shape := [2],
               distribution := { mean := .vector [2, -1/2], cov := .dense [[2, 0], [0, 5]] } } := by
    norm_num [addRV, broadcastShapes, Normal.shift, Value.bcastAdd, Value.shape, addVec]
  have hc := C4_shift_exact _ _ _ h
  exact ⟨h, hc.1, hc.2.1⟩

/-- C5: for the random variable with Normal distribution of mean `[1, 2]`
and covariance `diag(2, 5)`, and the column `x = [0, -1.4]`, the product
`rv @ x` is a scalar-shaped random variable with mean `-2.8` (variance
`49/5`). -/
theorem C5_dot_product_scenario :
    rmatmulRV
        { shape := [2],
          distribution := { mean := .vector [1, 2], cov := .dense [[2, 0], [0, 5]] } }
        [[0], [-7/5]]
      = some { shape := [],
               distribution := { mean := .scalar (-14/5), cov := .dense [[49/5]] } } ∧
    (-14/5 : ℚ) = -2.8 := by
  constructor
  · norm_num [rmatmulRV, cols, Covariance.applyCore, matvec, dot]
  · norm_num

/-- C7: coercing a non-finite scalar (NaN or ±infinity) through
`asrandvar` succeeds and returns a degenerate random variable whose mean is
the non-finite value and whose covariance is zero. -/
theorem C7_nonfinite_coercion (x : FloatScalar) (h : x.isFinite = false) :
    asrandvar (.num x) = some { mean := .exScalar x, covZero := zerosM 1 1 } := rfl

theorem C7_witness :
    FloatScalar.isFinite .nan = false ∧
    asrandvar (.num .nan) = some { mean := .exScalar .nan, covZero := zerosM 1 1 } :=
  ⟨rfl, C7_nonfinite_coercion .nan rfl⟩

/-- C8: whenever the cast of the observed value fails, the observer raises
a `TypeError`-class error carrying the message about the argument that
could not be cast, with the original cast failure preserved as the cause. -/
theorem C8_cast_error (f : ℚ → Except PyError PyObj) (a : ℚ) (obs : PyObj) (e : PyError)
    (hobs : f a = .ok obs) (hcast : as_numpy_scalar obs = .error e) :
    function_evaluation f a = .error (.typeError castErrorMessage (some e)) ∧
    e.isTypeError = true := by
  cases obs with
  | floatLike x => simp [as_numpy_scalar] at hcast
  | nonCastable d =>
      simp only [as_numpy_scalar] at hcast
      have he : (PyError.typeError ("float() argument must be a number, not " ++ d) none) = e := by
        injection hcast
      subst he
      refine ⟨?_, rfl⟩
      simp [function_evaluation, functionEvaluationWith, hobs, as_numpy_scalar]

theorem C8_witness :
    function_evaluation (fun _ => .ok (.nonCastable "str")) 0
      = .error (.typeError castErrorMessage
          (some (.typeError ("float() argument must be a number, not " ++ "str") none))) :=
  (C8_cast_error (fun _ => .ok (.nonCastable "str")) 0 (.nonCastable "str")
    (.typeError ("float() argument must be a number, not " ++ "str") none) rfl rfl).1

/-- C10: the observer wraps only a `TypeError` raised by the cast: an error
raised by `f a` itself propagates unchanged, a non-`TypeError` cast failure
propagates unchanged, and on success the cast value is returned. -/
theorem C10_wrapping_scope (cast : PyObj → Except PyError ℚ)
    (f : ℚ → Except PyError PyObj) (a : ℚ) :
    (∀ e, f a = .error e → functionEvaluationWith cast f a = .error e) ∧
    (∀ obs e, f a = .ok obs → cast obs = .error e → e.isTypeError = false →
      functionEvaluationWith cast f a = .error e) ∧
    (∀ obs x, f a = .ok obs → cast obs = .ok x →
      functionEvaluationWith cast f a = .ok x) := by
  refine ⟨?_, ?_, ?_⟩
  · intro e he
    simp [functionEvaluationWith, he]
  · intro obs e hobs hcast hne
    cases e with
    | typeError m c => simp [PyError.isTypeError] at hne
    | otherError m => simp [functionEvaluationWith, hobs, hcast]
  · intro obs x hobs hcast
    simp [functionEvaluationWith, hobs, hcast]

theorem C10_witness :
    functionEvaluationWith as_numpy_scalar (fun _ => .error (.otherError "boom")) 0
      = .error (.otherError "boom") :=
  (C10_wrapping_scope as_numpy_scalar (fun _ => .error (.otherError "boom")) 0).1
    (.otherError "boom") rfl

theorem eyeM_length (n : ℕ) : (eyeM n).length = n := by
  simp [eyeM]

theorem eyeM_rows (n : ℕ) : ∀ r ∈ eyeM n, r.length = n := by
  intro r hr
  simp only [eyeM, List.mem_map, List.mem_range] at hr
  obtain ⟨i, _, rfl⟩ := hr
  simp

/-- C1: for every conformable matrix `A` and vector-variate random variable
`rv`, the product `A @ rv` is a random variable whose mean is `A` applied
to the mean of `rv` and whose dense covariance is `A · cov(rv) · Aᵀ`. -/
theorem C1_matmul_affine (A : Mat) (rv : RandomVariable) (v : Vec)
    (hmean : rv.distribution.mean = .vector v)
    (hconf : cols A = v.length)
    (hA : ∀ r ∈ A, r.length = v.length)
    (hcov : CovWf rv.distribution.cov v.length)
    (hn : 0 < v.length) :
    matmulRV A rv = some
      { shape := [A.length],
        distribution :=
          { mean := .vector (matvec A v),
            cov := .dense (matmul (matmul A rv.distribution.cov.todense)
                                  (transposeM A)) } } := by
  have hcd : Wf rv.distribution.cov.todense v.length v.length := todense_wf _ _ hcov
  have h1 : covAffine A rv.distribution.cov
      = matmulT (matmul A rv.distribution.cov.todense) A :=
    covAffine_eq A _ v.length hcov hn hA
  have hQ : ∀ q ∈ matmul A rv.distribution.cov.todense, q ≠ [] := by
    intro q hq
    simp only [matmul, List.mem_map] at hq
    obtain ⟨ar, har, rfl⟩ := hq
    have hlen : (vecMat ar rv.distribution.cov.todense).length = v.length :=
      vecMat_length ar _ v.length
        (List.length_pos.mp (by rw [hA ar har]; exact hn))
        (List.length_pos.mp (by rw [hcd.1]; exact hn))
        hcd.2
    exact List.length_pos.mp (by rw [hlen]; exact hn)
  have h2 : matmul (matmul A rv.distribution.cov.todense) (transposeM A)
      = matmulT (matmul A rv.distribution.cov.todense) A :=
    matmul_transposeM _ A (by rw [hconf]; exact hA) (by rw [hconf]; exact hn) hQ
  simp only [matmulRV, hmean, if_pos hconf]
  rw [h1, ← h2]

theorem C1_witness :
    matmulRV [[1, 2], [3, 2]]
        { shape := [2], distribution := { mean := .vector [1, 2], cov := .dense [[2, 0], [0, 5]] } }
      = some
        { shape := [[[1, 2], [3, 2]].length],
          distribution :=
            { mean := .vector (matvec [[1, 2], [3, 2]] [1, 2]),
              cov := .dense (matmul (matmul [[1, 2], [3, 2]] (Covariance.todense (.dense [[2, 0], [0, 5]])))
                                    (transposeM [[1, 2], [3, 2]])) } } :=
  C1_matmul_affine [[1, 2], [3, 2]] _ [1, 2] rfl rfl (by simp)
    ⟨rfl, by simp⟩ (by norm_num)

/-- C3: for every `SymmetricKronecker(A, B)` operator and every conformable
vector `x`, the structured `apply` yields exactly the product of `x` with
the materialized dense matrix `to_dense()`. -/
theorem C3_symkron_structured_apply (A B : Mat) (x : Vec) (k : ℕ)
    (hA : Wf A k k) (hB : Wf B k k) (hk : 0 < k) (hx : x.length = k * k) :
    LinearOp.apply (.symmetricKronecker A B) x
      = some (matvec (LinearOp.todense (.symmetricKronecker A B)) x) := by
  have hguard : x.length = (LinearOp.symmetricKronecker A B).colsOp := by
    simp only [LinearOp.colsOp]
    rw [Wf_cols A k k hA hk, Wf_cols B k k hB hk, hx]
  simp only [LinearOp.apply, if_pos hguard]
  exact congrArg some (symKron_applyCore A B k x hA hB hk hx)

theorem C3_witness :
    LinearOp.apply (.symmetricKronecker [[1, 0], [0, 1]] [[1, 1], [1, 1]]) [1, 2, 3, 4]
      = some (matvec (LinearOp.todense (.symmetricKronecker [[1, 0], [0, 1]] [[1, 1], [1, 1]]))
          [1, 2, 3, 4]) :=
  C3_symkron_structured_apply [[1, 0], [0, 1]] [[1, 1], [1, 1]] [1, 2, 3, 4] 2
    ⟨rfl, by simp⟩ ⟨rfl, by simp⟩ (by norm_num) rfl

/-- C9: for a matrix-variate random variable of shape `(n, n)` and a column
vector `x` of shape `(n, 1)`, the product `rv @ x` has shape `(n, 1)`, mean
`mean(rv) · x`, and dense covariance `(I ⊗ x)ᵀ · cov · (I ⊗ x)`. -/
theorem C9_matrix_variate_vector (rv : RandomVariable) (M x : Mat) (n : ℕ)
    (hmean : rv.distribution.mean = .matrix M)
    (hM : Wf M n n) (hx : Wf x n 1) (hn : 0 < n)
    (hcov : CovWf rv.distribution.cov (n * n)) :
    rmatmulRV rv x = some
      { shape := [n, 1],
        distribution :=
          { mean := .matrix (matmul M x),
            cov := .dense (matmul
              (matmul (transposeM (kron (eyeM n) x)) rv.distribution.cov.todense)
              (kron (eyeM n) x)) } } := by
  have hnn : 0 < n * n := Nat.mul_pos hn hn
  have hMlen : M.length = n := hM.1
  have hcolsM : cols M = n := Wf_cols M n n hM hn
  have hxlen : x.length = n := hx.1
  have hcolsx : cols x = 1 := Wf_cols x n 1 hx hn
  have hKlen : (kron (eyeM n) x).length = n * n := by
    rw [kron_length, eyeM_length, hxlen]
  have hKrows : ∀ r ∈ kron (eyeM n) x, r.length = n := by
    intro r hr
    have := kron_rows (eyeM n) x n 1 (eyeM_rows n) hx.2 r hr
    simpa using this
  have hKne : kron (eyeM n) x ≠ [] := List.length_pos.mp (by rw [hKlen]; exact hnn)
  have hcolsK : cols (kron (eyeM n) x) = n := Wf_cols _ (n * n) n ⟨hKlen, hKrows⟩ hnn
  have hP : ∀ p ∈ transposeM (kron (eyeM n) x), p.length = n * n := by
    intro p hp
    rw [transposeM_rows _ p hp, hKlen]
  have hcd : Wf rv.distribution.cov.todense (n * n) (n * n) := todense_wf _ _ hcov
  have h1 : covAffine (transposeM (kron (eyeM n) x)) rv.distribution.cov
      = matmulT (matmul (transposeM (kron (eyeM n) x)) rv.distribution.cov.todense)
          (transposeM (kron (eyeM n) x)) :=
    covAffine_eq _ _ (n * n) hcov hnn hP
  have hQ : ∀ q ∈ matmul (transposeM (kron (eyeM n) x)) rv.distribution.cov.todense, q ≠ [] := by
    intro q hq
    simp only [matmul, List.mem_map] at hq
    obtain ⟨p, hp, rfl⟩ := hq
    have hlen : (vecMat p rv.distribution.cov.todense).length = n * n :=
      vecMat_length p _ (n * n)
        (List.length_pos.mp (by rw [hP p hp]; exact hnn))
        (List.length_pos.mp (by rw [hcd.1]; exact hnn))
        hcd.2
    exact List.length_pos.mp (by rw [hlen]; exact hnn)
  have h2 : matmulT (matmul (transposeM (kron (eyeM n) x)) rv.distribution.cov.todense)
        (transposeM (kron (eyeM n) x))
      = matmul (matmul (transposeM (kron (eyeM n) x)) rv.distribution.cov.todense)
          (kron (eyeM n) x) :=
    matmulT_transposeM _ _ (by rw [hcolsK]; exact hKrows) hKne hQ
  simp only [rmatmulRV, hmean]
  rw [if_pos ⟨by rw [hxlen, hcolsM], hcolsx⟩, hMlen, h1, h2]

theorem C9_witness :
    rmatmulRV
        { shape := [2, 2],
          distribution :=
            { mean := .matrix [[-2, 3/10], [0, 1]],
              cov := .op (.symmetricKronecker [[1, 0], [0, 1]] [[1, 1], [1, 1]]) } }
        [[1], [-4]]
      = some
        { shape := [2, 1],
          distribution :=
            { mean := .matrix (matmul [[-2, 3/10], [0, 1]] [[1], [-4]]),
              cov := .dense (matmul
                (matmul (transposeM (kron (eyeM 2) [[1], [-4]]))
                  (Covariance.todense (.op (.symmetricKronecker [[1, 0], [0, 1]] [[1, 1], [1, 1]]))))
                (kron (eyeM 2) [[1], [-4]])) } } :=
  C9_matrix_variate_vector _ [[-2, 3/10], [0, 1]] [[1], [-4]] 2 rfl
    ⟨rfl, by simp⟩ ⟨rfl, by simp⟩ (by norm_num) ⟨⟨rfl, by simp⟩, ⟨rfl, by simp⟩, rfl⟩

theorem addRV_shape (rv : RandomVariable) (x : Value) (z : RandomVariable)
    (hshape : rv.shape = rv.distribution.mean.shape) (hmwf : rv.distribution.mean.wf)
    (hx : x.wf) (h : addRV rv x = some z) :
    z.shape = z.distribution.mean.shape := by
  unfold addRV at h
  cases hb : broadcastShapes rv.shape x.shape with
  | none => rw [hb] at h; simp at h
  | some s =>
      cases hd : rv.distribution.shift x with
      | none => rw [hb, hd] at h; simp at h
      | some d =>
          rw [hb, hd] at h
          simp only [Option.some_inj] at h
          subst h
          unfold Normal.shift at hd
          cases hm : Value.bcastAdd rv.distribution.mean x with
          | none => rw [hm] at hd; simp at hd
          | some m =>
              rw [hm] at hd
              simp only [Option.map, Option.some_inj] at hd
              subst hd
              rw [hshape] at hb
              exact (bcast_shape rv.distribution.mean x m s hmwf hx hm hb).symm

/-- C6: for every operation of the arithmetic dispatch table applied to a
well-formed random variable with a well-formed operand, the declared shape
of the resulting random variable equals the shape of the mean of its
distribution. -/
theorem C6_shape_invariant (op : OpKind) (rv z : RandomVariable)
    (hrv : RVWf rv) (hop : OpKind.wf op) (h : applyOp op rv = some z) :
    z.shape = z.distribution.mean.shape := by
  obtain ⟨hshape, hmwf, hcov⟩ := hrv
  cases op with
  | addConst x => exact addRV_shape rv x z hshape hmwf hop h
  | raddConst x => exact addRV_shape rv x z hshape hmwf hop h
  | subConst x =>
      exact addRV_shape rv (x.scale (-1)) z hshape hmwf (value_scale_wf _ x hop) h
  | scalarMul α =>
      simp only [applyOp, Option.some_inj] at h
      subst h
      show rv.shape = (rv.distribution.mean.scale α).shape
      rw [value_scale_shape]
      exact hshape
  | matMul A =>
      simp only [applyOp] at h
      unfold matmulRV at h
      cases hme : rv.distribution.mean with
      | scalar y => rw [hme] at h; simp at h
      | matrix M => rw [hme] at h; simp at h
      | vector v =>
          rw [hme] at h
          simp only at h
          split_ifs at h with hg
          · simp only [Option.some_inj] at h
            subst h
            simp [Value.shape, matvec_length]
  | rmatMul X =>
      simp only [applyOp] at h
      unfold rmatmulRV at h
      cases hme : rv.distribution.mean with
      | scalar y => rw [hme] at h; simp at h
      | vector v =>
          rw [hme] at h
          simp only at h
          split_ifs at h with hg
          · simp only [Option.some_inj] at h
            subst h
            rfl
      | matrix M =>
          rw [hme] at h
          simp only at h
          split_ifs at h with hg
          · obtain ⟨hg1, hg2⟩ := hg
            simp only [Option.some_inj] at h
            subst h
            have hX0 : X ≠ [] := by
              intro hX
              rw [hX] at hg2
              simp [cols] at hg2
            have hcM : 0 < cols M := by
              rw [← hg1]
              exact List.length_pos.mpr hX0
            cases M with
            | nil => simp [cols] at hcM
            | cons m0 M2 =>
                have hm0 : m0 ≠ [] := by
                  have hl : 0 < m0.length := by simpa [cols] using hcM
                  exact List.length_pos.mp hl
                simp only [Value.shape, matmul_length, List.cons.injEq, and_true]
                refine ⟨trivial, ?_⟩
                have hcols : cols (matmul (m0 :: M2) X) = (vecMat m0 X).length := by
                  simp [matmul, cols]
                rw [hcols, vecMat_length m0 X (cols X) hm0 hX0 hop, hg2]
  | linopMul L =>
      simp only [applyOp] at h
      unfold linopMulRV at h
      cases hme : rv.distribution.mean with
      | scalar y => rw [hme] at h; simp at h
      | matrix M => rw [hme] at h; simp at h
      | vector v =>
          rw [hme] at h
          simp only at h
          split_ifs at h with hg
          · simp only [Option.some_inj] at h
            subst h
            simp [Value.shape, linop_applyCore_length L v hop]
  | addRand rv2 =>
      simp only [applyOp] at h
      unfold addRVRV at h
      split_ifs at h with hsh
      · cases hm : Value.bcastAdd rv.distribution.mean rv2.distribution.mean with
        | none => rw [hm] at h; simp at h
        | some m =>
            rw [hm] at h
            simp only [Option.some_inj] at h
            subst h
            obtain ⟨hshape2, hmwf2, hcov2⟩ := hop
            have hms : rv.distribution.mean.shape = rv2.distribution.mean.shape := by
              rw [← hshape, ← hshape2, hsh]
            have hb2 : broadcastShapes rv.distribution.mean.shape rv2.distribution.mean.shape
                = some rv.distribution.mean.shape := by
              rw [hms]
              exact broadcastShapes_self _
            have hbs := bcast_shape rv.distribution.mean rv2.distribution.mean m
              rv.distribution.mean.shape hmwf hmwf2 hm hb2
            show rv.shape = m.shape
            rw [hshape, hbs]

theorem C6_witness :
    (scalarMulRV 2 { shape := [2], distribution := { mean := .vector [1, 2], cov := .dense [[2, 0], [0, 5]] } }).shape
      = (scalarMulRV 2 { shape := [2], distribution := { mean := .vector [1, 2], cov := .dense [[2, 0], [0, 5]] } }).distribution.mean.shape :=
  C6_shape_invariant (.scalarMul 2)
    { shape := [2], distribution := { mean := .vector [1, 2], cov := .dense [[2, 0], [0, 5]] } }
    _ ⟨rfl, trivial, by simp [Value.size], by simp [Value.size]⟩ trivial rfl

end ProbNum
